import Mathlib

/-!
# Verification of the docker-flow-proxy configuration data model (proxy/types.go)

This file gives a shallow embedding of `proxy/types.go` and proves the
specification's claims about it.

Modelling conventions:
* Go strings are modelled as `List Char` (`Str`).  All the delimiter and
  cutset characters involved (`'\n'`, `','`, `'\t'`, `' '`, `':'`) are ASCII,
  so Go's byte-index operations (`strings.Index`, slicing) coincide with the
  character-level operations used here, and Go's byte-wise lexicographic
  string comparison coincides with code-point lexicographic comparison on
  `List Char` (UTF-8 byte order equals code-point order).
* Go struct zero values become Lean structure field defaults.
* `logPrintf` calls are diagnostics only; they do not affect the returned
  values, so the embedding drops them (the corresponding control-flow
  branches are kept).
* `rand.Int63()` is an external source of randomness; `RandomUser` takes the
  drawn value as an explicit argument.
-/

namespace DockerFlowProxy

/-- Go strings, modelled as lists of characters. -/
abbrev Str : Type := List Char

/-- `type User struct` (types.go:117-121).  Field defaults are Go's zero
values. -/
structure User where
  Username : Str := []
  Password : Str := []
  PassEncrypted : Bool := false
deriving DecidableEq

/-- `func (user *User) HasPassword()` (types.go:123-125):
`!strings.EqualFold(user.Password, "")`, i.e. the password is non-empty
(case-folding is irrelevant against the empty string). -/
def User.HasPassword (user : User) : Bool :=
  !(user.Password == [])

/-- `type ServiceDest struct` (types.go:9-20). -/
structure ServiceDest where
  Port : Str := []
  ServicePath : List Str := []
  SrcPort : Int := 0
  SrcPortAcl : Str := []
  SrcPortAclName : Str := []
deriving DecidableEq

/-- The type of the `ServiceDest []ServiceDest` field of `Service`
(the field and the element type share their name in the Go source). -/
abbrev ServiceDestList : Type := List ServiceDest

/-- `type Service struct` (types.go:22-101).  Field defaults are Go's zero
values. -/
structure Service where
  AclName : Str := []
  ConsulTemplateFePath : Str := []
  ConsulTemplateBePath : Str := []
  Distribute : Bool := false
  HttpsOnly : Bool := false
  HttpsPort : Int := 0
  OutboundHostname : Str := []
  PathType : Str := []
  RedirectWhenHttpProto : Bool := false
  ReqMode : Str := []
  ReqRepReplace : Str := []
  ReqRepSearch : Str := []
  ReqPathReplace : Str := []
  ReqPathSearch : Str := []
  ServiceCert : Str := []
  ServiceDomain : List Str := []
  ServiceDomainMatchAll : Bool := false
  ServiceName : Str := []
  SkipCheck : Bool := false
  SslVerifyNone : Bool := false
  TemplateBePath : Str := []
  TemplateFePath : Str := []
  TimeoutServer : Str := []
  TimeoutTunnel : Str := []
  Users : List User := []
  ServiceColor : Str := []
  ServicePort : Str := []
  AclCondition : Str := []
  FullServiceName : Str := []
  Host : Str := []
  LookupRetry : Int := 0
  LookupRetryInterval : Int := 0
  ServiceDest : ServiceDestList := []
deriving DecidableEq

/-- `type Services []Service` (types.go:103). -/
abbrev Services : Type := List Service

/-- The element comparison performed by `func (slice Services) Less(i, j int)`
(types.go:109-111): `slice[i].AclName < slice[j].AclName`, Go's byte-wise
(equivalently, code-point lexicographic) string comparison. -/
def Service.less (a b : Service) : Bool :=
  decide (a.AclName < b.AclName)

/-- Modelled from the spec: the operation `sortByAclName(collection)` — the
invocation of Go's `sort.Sort` over the `Services` `Len`/`Less`/`Swap`
interface — lives outside `src/` (only the comparator `Services.Less` is in
`types.go`).  Per the spec it performs a total ordering by `aclName`,
ascending, simple lexicographic comparison.  `sort.Sort`'s postcondition is
exactly that the result is sorted with respect to `Less`: no later element is
`Less` than an earlier one.  We model it as a sort placing `a` before `b`
whenever `¬ Service.less b a`, i.e. `a.AclName ≤ b.AclName`. -/
def sortByAclName (ss : Services) : Services :=
  ss.insertionSort (fun a b => Service.less b a = false)

/-- `strconv.FormatInt(i, 3)` for a non-negative `i` (the only values
`rand.Int63` produces): the base-3 digit string, most significant digit
first, using digit characters `'0'`, `'1'`, `'2'`; `"0"` for zero.
`Nat.digits 3 n` is the least-significant-first base-3 digit list. -/
def formatInt3 (n : Nat) : Str :=
  if n = 0 then ['0'] else ((Nat.digits 3 n).map Nat.digitChar).reverse

/-- `func RandomUser()` (types.go:127-132).  The value drawn from
`rand.Int63()` (a non-negative 63-bit integer) is passed explicitly. -/
def RandomUser (randomValue : Nat) : User :=
  { Username := "dummyUser".data
    PassEncrypted := true
    Password := formatInt3 randomValue }

/-- The rune predicate `splitter` of `ExtractUsersFromString`
(types.go:139-141): `x == '\n' || x == ','`. -/
def splitter (x : Char) : Bool :=
  x == '\n' || x == ','

/-- The cutset `"\n\t "` of `strings.Trim` at types.go:144. -/
def nlTabSpace : Str := ['\n', '\t', ' ']

/-- The cutset `"\t "` of `strings.Trim` at types.go:150-151. -/
def tabSpace : Str := ['\t', ' ']

/-- `strings.Trim(s, cutset)`: remove the leading and trailing characters of
`s` that occur in `cutset`. -/
def trim (cutset : Str) (s : Str) : Str :=
  ((s.dropWhile fun c => cutset.contains c).reverse.dropWhile
      fun c => cutset.contains c).reverse

/-- `strings.FieldsFunc(s, f)`: the maximal runs of characters of `s` not
satisfying `f`, in order; no empty fields.  `List.splitOnP` splits at every
character satisfying the predicate (keeping empty chunks), so filtering the
empty chunks away gives exactly the maximal non-delimiter runs. -/
def fieldsFunc (f : Char → Bool) (s : Str) : List Str :=
  (s.splitOnP f).filter fun chunk => !chunk.isEmpty

/-- One iteration of the `for _, user := range users` loop of
`ExtractUsersFromString` (types.go:143-169), acting on the accumulator
`collectedUsers`.  The `logPrintf` branches keep their control flow but only
their (absent) effect on the result.  The final `else if !skipEmptyPassword`
of the Go source is the `else` here: the chain is exhaustive over the
boolean. -/
def extractStep (encrypted skipEmptyPassword : Bool) (collectedUsers : List User)
    (rawTok : Str) : List User :=
  let user := trim nlTabSpace rawTok
  if user.length = 0 then
    collectedUsers
  else if user.contains ':' then
    let colonIndex := user.indexOf ':'
    let userName := trim tabSpace (user.take colonIndex)
    let userPass := trim tabSpace (user.drop (colonIndex + 1))
    if userName.length = 0 || userPass.length = 0 then
      collectedUsers
    else
      collectedUsers ++
        [{ Username := userName, Password := userPass, PassEncrypted := encrypted }]
  else
    if user.length = 0 then
      collectedUsers
    else if skipEmptyPassword then
      collectedUsers
    else
      collectedUsers ++ [{ Username := user }]

/-- `func ExtractUsersFromString(context, usersString string, encrypted,
skipEmptyPassword bool) []*User` (types.go:134-171).  `context` only feeds
the diagnostics, hence is unused in the embedding. -/
def ExtractUsersFromString (_context usersString : Str)
    (encrypted skipEmptyPassword : Bool) : List User :=
  if usersString.length = 0 then []
  else (fieldsFunc splitter usersString).foldl (extractStep encrypted skipEmptyPassword) []

/-- Reachability flag for the `len(user) == 0` diagnostic branch inside the
no-colon `else` of `ExtractUsersFromString` (types.go:159-161), following the
loop body's control flow exactly: `true` iff that branch is taken for this
token. -/
def deadBranchHit (rawTok : Str) : Bool :=
  let user := trim nlTabSpace rawTok
  if user.length = 0 then false
  else if user.contains ':' then false
  else user.length = 0

/-- Whether any loop iteration of `ExtractUsersFromString usersString` takes
the dead diagnostic branch (types.go:159-161). -/
def extractUsersDeadBranchHit (usersString : Str) : Bool :=
  if usersString.length = 0 then false
  else (fieldsFunc splitter usersString).any deadBranchHit

example :
    ExtractUsersFromString [] "alice:secret,bob:pw2\ncarol:pw3".data false false =
      [⟨"alice".data, "secret".data, false⟩, ⟨"bob".data, "pw2".data, false⟩,
        ⟨"carol".data, "pw3".data, false⟩] := by decide

example :
    ExtractUsersFromString [] "dave:,:pw,eve".data false true = [] := by decide

example :
    ExtractUsersFromString [] "  frank : pw4  ".data false false =
      [⟨"frank".data, "pw4".data, false⟩] := by decide

example :
    ExtractUsersFromString [] "sam:a:b:c".data true false =
      [⟨"sam".data, "a:b:c".data, true⟩] := by decide

example :
    ExtractUsersFromString [] "eve".data true false =
      [⟨"eve".data, [], false⟩] := by decide

example :
    sortByAclName [{ AclName := "zeta".data }, { AclName := "alpha".data },
        { AclName := "mu".data }] =
      [{ AclName := "alpha".data }, { AclName := "mu".data },
        { AclName := "zeta".data }] := by decide

example : formatInt3 0 = ['0'] := by decide

example : formatInt3 10 = ['1', '0', '1'] := by
  simp [formatInt3]
  decide

/-! ### Helper lemmas about `extractStep` -/

theorem contains_ne_nil {l : Str} {a : Char} (h : l.contains a = true) : l ≠ [] := by
  intro he
  subst he
  simp at h

/-- `extractStep` only ever appends to the accumulator. -/
theorem extractStep_acc (e k : Bool) (acc : List User) (tok : Str) :
    extractStep e k acc tok = acc ++ extractStep e k [] tok := by
  simp only [extractStep]
  split_ifs <;> simp

theorem foldl_extractStep_acc (e k : Bool) (acc : List User) (toks : List Str) :
    toks.foldl (extractStep e k) acc = acc ++ toks.foldl (extractStep e k) [] := by
  induction toks generalizing acc with
  | nil => simp
  | cons t ts ih =>
    rw [List.foldl_cons, ih, extractStep_acc, List.append_assoc, List.foldl_cons,
      ih (extractStep e k [] t)]

/-- A token that trims to nothing is skipped. -/
theorem extractStep_of_trim_eq_nil (e k : Bool) (acc : List User) {tok : Str}
    (h : trim nlTabSpace tok = []) : extractStep e k acc tok = acc := by
  simp [extractStep, h]

/-- A colon-delimited token with an empty half is dropped. -/
theorem extractStep_colon_malformed (e k : Bool) (acc : List User) {tok : Str}
    (hc : (trim nlTabSpace tok).contains ':' = true)
    (hbad :
      trim tabSpace ((trim nlTabSpace tok).take ((trim nlTabSpace tok).indexOf ':')) = [] ∨
      trim tabSpace ((trim nlTabSpace tok).drop ((trim nlTabSpace tok).indexOf ':' + 1)) = []) :
    extractStep e k acc tok = acc := by
  have h0 : ¬(trim nlTabSpace tok).length = 0 := by
    simpa [List.length_eq_zero] using contains_ne_nil hc
  have hm : ':' ∈ trim nlTabSpace tok := by simpa using hc
  rcases hbad with h | h <;>
    simp [extractStep, h0, hm, List.length_eq_zero, h]

/-- A colon-delimited token with both halves non-empty yields exactly one
credential carrying the `encrypted` argument. -/
theorem extractStep_colon_wellformed (e k : Bool) (acc : List User) {tok : Str}
    (hc : (trim nlTabSpace tok).contains ':' = true)
    (hn : trim tabSpace ((trim nlTabSpace tok).take ((trim nlTabSpace tok).indexOf ':')) ≠ [])
    (hp : trim tabSpace ((trim nlTabSpace tok).drop ((trim nlTabSpace tok).indexOf ':' + 1)) ≠ []) :
    extractStep e k acc tok =
      acc ++
        [{ Username := trim tabSpace ((trim nlTabSpace tok).take ((trim nlTabSpace tok).indexOf ':'))
           Password := trim tabSpace ((trim nlTabSpace tok).drop ((trim nlTabSpace tok).indexOf ':' + 1))
           PassEncrypted := e }] := by
  have h0 : ¬(trim nlTabSpace tok).length = 0 := by
    simpa [List.length_eq_zero] using contains_ne_nil hc
  have hm : ':' ∈ trim nlTabSpace tok := by simpa using hc
  simp [extractStep, h0, hm, List.length_eq_zero, hn, hp]

/-- A bare-username token is dropped when `skipEmptyPassword` is true. -/
theorem extractStep_bare_skip (e : Bool) (acc : List User) {tok : Str}
    (hc : (trim nlTabSpace tok).contains ':' = false)
    (h0 : trim nlTabSpace tok ≠ []) :
    extractStep e true acc tok = acc := by
  have hm : ':' ∉ trim nlTabSpace tok := by simpa using hc
  simp [extractStep, hm, List.length_eq_zero, h0]

/-- A bare-username token with `skipEmptyPassword = false` yields a credential
with empty password whose `PassEncrypted` is the Go zero value `false`
(types.go:166 sets only `Username`). -/
theorem extractStep_bare_keep (e : Bool) (acc : List User) {tok : Str}
    (hc : (trim nlTabSpace tok).contains ':' = false)
    (h0 : trim nlTabSpace tok ≠ []) :
    extractStep e false acc tok =
      acc ++ [{ Username := trim nlTabSpace tok, Password := [], PassEncrypted := false }] := by
  have hm : ':' ∉ trim nlTabSpace tok := by simpa using hc
  simp [extractStep, hm, List.length_eq_zero, h0]

/-- Every user produced by one loop iteration is either inherited from the
accumulator or has a non-empty username. -/
theorem mem_extractStep {e k : Bool} {acc : List User} {tok : Str} {u : User}
    (hu : u ∈ extractStep e k acc tok) : u ∈ acc ∨ u.Username ≠ [] := by
  revert hu
  simp only [extractStep]
  split_ifs with h0 hc hbad hk
  · exact fun hu => Or.inl hu
  · exact fun hu => Or.inl hu
  · intro hu
    rcases List.mem_append.1 hu with h | h
    · exact Or.inl h
    · refine Or.inr ?_
      simp only [List.mem_singleton] at h
      subst h
      simp only [Bool.or_eq_true, decide_eq_true_eq, List.length_eq_zero] at hbad
      push_neg at hbad
      simpa using hbad.1
  · exact fun hu => Or.inl hu
  · intro hu
    rcases List.mem_append.1 hu with h | h
    · exact Or.inl h
    · refine Or.inr ?_
      simp only [List.mem_singleton] at h
      subst h
      simpa [List.length_eq_zero] using h0

theorem mem_foldl_extractStep {e k : Bool} {toks : List Str} {acc : List User} {u : User}
    (hu : u ∈ toks.foldl (extractStep e k) acc) : u ∈ acc ∨ u.Username ≠ [] := by
  induction toks generalizing acc with
  | nil => exact Or.inl hu
  | cons t ts ih =>
    rw [List.foldl_cons] at hu
    rcases ih hu with h | h
    · exact mem_extractStep h
    · exact Or.inr h

/-! ### Trimming lemmas -/

theorem dropWhile_prepend (p : Char → Bool) (pre s : Str) (h : ∀ c ∈ pre, p c = true) :
    (pre ++ s).dropWhile p = s.dropWhile p := by
  induction pre with
  | nil => simp
  | cons a l ih =>
    rw [List.cons_append, List.dropWhile_cons, if_pos (h a (by simp))]
    exact ih fun c hc => h c (by simp [hc])

/-- Prepending characters of the cutset does not change the trimmed result. -/
theorem trim_prepend (cutset pre s : Str) (h : ∀ c ∈ pre, cutset.contains c = true) :
    trim cutset (pre ++ s) = trim cutset s := by
  simp only [trim, dropWhile_prepend _ pre s h]

/-- Appending characters of the cutset does not change the trimmed result. -/
theorem trim_postpend (cutset s post : Str) (h : ∀ c ∈ post, cutset.contains c = true) :
    trim cutset (s ++ post) = trim cutset s := by
  simp only [trim, List.dropWhile_append]
  by_cases he : (s.dropWhile fun c => cutset.contains c).isEmpty
  · have hp : (post.dropWhile fun c => cutset.contains c) = [] := by
      rw [List.dropWhile_eq_nil_iff]
      exact fun c hc => h c hc
    have hs : (s.dropWhile fun c => cutset.contains c) = [] := by
      simpa [List.isEmpty_iff] using he
    rw [if_pos he, hp, hs]
  · rw [if_neg he, List.reverse_append,
      dropWhile_prepend _ post.reverse _ fun c hc => h c (by simpa using hc)]

/-- `extractStep` depends on its token only through the trimmed token. -/
theorem extractStep_congr (e k : Bool) (acc : List User) {t1 t2 : Str}
    (h : trim nlTabSpace t1 = trim nlTabSpace t2) :
    extractStep e k acc t1 = extractStep e k acc t2 := by
  simp only [extractStep, h]

/-! ### First-colon decomposition lemmas -/

theorem indexOf_append_colon {u : Str} (p : Str) (hu : ':' ∉ u) :
    (u ++ ':' :: p).indexOf ':' = u.length := by
  induction u with
  | nil => simp [List.indexOf_cons]
  | cons a l ih =>
    have ha : (a == ':') = false := by
      simp only [beq_eq_false_iff_ne]
      intro h
      exact hu (by simp [h])
    rw [List.cons_append, List.indexOf_cons, ha, Bool.cond_false,
      ih fun h => hu (List.mem_cons_of_mem _ h)]
    simp

theorem contains_append_colon (u p : Str) : (u ++ ':' :: p).contains ':' = true := by
  simp

theorem take_before_colon (u p : Str) : (u ++ ':' :: p).take u.length = u :=
  List.take_left u (':' :: p)

theorem drop_after_colon (u p : Str) : (u ++ ':' :: p).drop (u.length + 1) = p := by
  have h : u ++ ':' :: p = (u ++ [':']) ++ p := by simp
  have h2 : u.length + 1 = (u ++ [':']).length := by simp
  rw [h, h2, List.drop_left]

/-! ### Well-formed tokens -/

/-- A delimiter-split token is well-formed when, after trimming, it contains a
colon and both the username half and the password half are non-empty after
their own trimming. -/
def wellFormedTok (tok : Str) : Prop :=
  (trim nlTabSpace tok).contains ':' = true ∧
  trim tabSpace ((trim nlTabSpace tok).take ((trim nlTabSpace tok).indexOf ':')) ≠ [] ∧
  trim tabSpace ((trim nlTabSpace tok).drop ((trim nlTabSpace tok).indexOf ':' + 1)) ≠ []

instance (tok : Str) : Decidable (wellFormedTok tok) := by
  unfold wellFormedTok
  infer_instance

/-- The credential the loop body builds from a well-formed token
(types.go:148-157). -/
def mkCred (encrypted : Bool) (tok : Str) : User :=
  { Username := trim tabSpace ((trim nlTabSpace tok).take ((trim nlTabSpace tok).indexOf ':'))
    Password := trim tabSpace ((trim nlTabSpace tok).drop ((trim nlTabSpace tok).indexOf ':' + 1))
    PassEncrypted := encrypted }

theorem foldl_extractStep_wellformed (e k : Bool) (toks : List Str)
    (h : ∀ tok ∈ toks, wellFormedTok tok) :
    toks.foldl (extractStep e k) [] = toks.map (mkCred e) := by
  induction toks with
  | nil => rfl
  | cons t ts ih =>
    obtain ⟨hc, hn, hp⟩ := h t (by simp)
    rw [List.foldl_cons, foldl_extractStep_acc,
      extractStep_colon_wellformed e k [] hc hn hp,
      ih fun tok htok => h tok (by simp [htok]), List.map_cons]
    rfl

/-! ### `formatInt3` lemmas -/

theorem formatInt3_ne_nil (n : Nat) : formatInt3 n ≠ [] := by
  by_cases h : n = 0
  · simp [formatInt3, h]
  · simp [formatInt3, h, Nat.digits_eq_nil_iff_eq_zero]

theorem formatInt3_mem (n : Nat) : ∀ c ∈ formatInt3 n, c ∈ ['0', '1', '2'] := by
  intro c hc
  by_cases h : n = 0
  · simp only [formatInt3, if_pos h, List.mem_singleton] at hc
    simp [hc]
  · simp only [formatInt3, if_neg h, List.mem_reverse, List.mem_map] at hc
    obtain ⟨d, hd, hdc⟩ := hc
    have hlt : d < 3 := Nat.digits_lt_base (by norm_num) hd
    subst hdc
    interval_cases d <;> decide

theorem digitChar_map_inj : ∀ (l1 l2 : List Nat), (∀ d ∈ l1, d < 3) → (∀ d ∈ l2, d < 3) →
    l1.map Nat.digitChar = l2.map Nat.digitChar → l1 = l2 := by
  intro l1
  induction l1 with
  | nil =>
    intro l2 _ _ h
    cases l2 with
    | nil => rfl
    | cons b l2' => simp at h
  | cons a l ih =>
    intro l2 h1 h2 h
    cases l2 with
    | nil => simp at h
    | cons b l2' =>
      simp only [List.map_cons, List.cons.injEq] at h
      obtain ⟨hab, hl⟩ := h
      have ha : a < 3 := h1 a (by simp)
      have hb : b < 3 := h2 b (by simp)
      have hab2 : a = b := by
        interval_cases a <;> interval_cases b <;> revert hab <;> decide
      subst hab2
      rw [ih l2' (fun d hd => h1 d (by simp [hd])) (fun d hd => h2 d (by simp [hd])) hl]

theorem eq_zero_of_formatInt3_eq_zero_str {n : Nat} (h : formatInt3 n = ['0']) : n = 0 := by
  by_contra hn
  have h2 : (Nat.digits 3 n).map Nat.digitChar = ['0'] := by
    have := congrArg List.reverse h
    simpa [formatInt3, hn] using this
  rcases hd : Nat.digits 3 n with _ | ⟨d, l'⟩
  · rw [hd] at h2
    simp at h2
  · rw [hd] at h2
    simp only [List.map_cons, List.cons.injEq, List.map_eq_nil_iff] at h2
    obtain ⟨hd0, hl'⟩ := h2
    have hdlt : d < 3 := Nat.digits_lt_base (by norm_num) (by rw [hd]; simp)
    have hdz : d = 0 := by
      interval_cases d <;> revert hd0 <;> decide
    have hofs := Nat.ofDigits_digits 3 n
    rw [hd, hdz, hl'] at hofs
    simp [Nat.ofDigits] at hofs
    exact hn hofs.symm

theorem formatInt3_injective : ∀ m n : Nat, formatInt3 m = formatInt3 n → m = n := by
  intro m n h
  by_cases hm : m = 0
  · subst hm
    have : formatInt3 n = ['0'] := by rw [← h]; rfl
    exact (eq_zero_of_formatInt3_eq_zero_str this).symm
  · by_cases hn : n = 0
    · subst hn
      have : formatInt3 m = ['0'] := by rw [h]; rfl
      exact eq_zero_of_formatInt3_eq_zero_str this
    · simp only [formatInt3, if_neg hm, if_neg hn, List.reverse_inj] at h
      have h3 : Nat.digits 3 m = Nat.digits 3 n :=
        digitChar_map_inj _ _ (fun d hd => Nat.digits_lt_base (by norm_num) hd)
          (fun d hd => Nat.digits_lt_base (by norm_num) hd) h
      have := congrArg (Nat.ofDigits 3) h3
      simpa [Nat.ofDigits_digits] using this

/-! ### Ordering lemmas for `sortByAclName` -/

/-- `¬ Less b a` is exactly `a.AclName ≤ b.AclName`. -/
theorem service_le_iff (a b : Service) :
    (Service.less b a = false) ↔ a.AclName ≤ b.AclName := by
  simp [Service.less, not_lt]

theorem service_le_total : IsTotal Service fun a b => Service.less b a = false := by
  constructor
  intro a b
  rw [service_le_iff, service_le_iff]
  exact le_total a.AclName b.AclName

theorem service_le_trans : IsTrans Service fun a b => Service.less b a = false := by
  constructor
  intro a b c hab hbc
  rw [service_le_iff] at hab hbc ⊢
  exact le_trans hab hbc

/-! ### The claims -/

/-- C1: for every raw credential string whose delimiter-split tokens are all
well-formed `username:password` entries, `ExtractUsersFromString` returns
exactly one credential per token — the token's trimmed username and password
halves with the `encrypted` argument as flag — in token order and without
deduplication; in particular on `"alice:secret,bob:pw2\ncarol:pw3"` with
`encrypted = false` it yields exactly
`[{alice,secret,false}, {bob,pw2,false}, {carol,pw3,false}]` in that order. -/
theorem claim_C1 :
    (∀ (ctx s : Str) (e k : Bool),
        (∀ tok ∈ fieldsFunc splitter s, wellFormedTok tok) →
        ExtractUsersFromString ctx s e k = (fieldsFunc splitter s).map (mkCred e)) ∧
    ExtractUsersFromString [] "alice:secret,bob:pw2\ncarol:pw3".data false false =
      [⟨"alice".data, "secret".data, false⟩, ⟨"bob".data, "pw2".data, false⟩,
        ⟨"carol".data, "pw3".data, false⟩] := by
  constructor
  · intro ctx s e k h
    unfold ExtractUsersFromString
    split_ifs with h0
    · have hs : s = [] := List.length_eq_zero.1 h0
      subst hs
      rfl
    · exact foldl_extractStep_wellformed e k _ h
  · decide

theorem claim_C1_witness :
    ExtractUsersFromString [] "x:y,a:b".data true true =
      (fieldsFunc splitter "x:y,a:b".data).map (mkCred true) :=
  claim_C1.1 [] "x:y,a:b".data true true (by decide)

/-- C2 counterexample: parsing the bare-username token `"eve"` with
`encrypted = true` and `skipEmptyPassword = false` yields a credential whose
encrypted flag is `false`, not the `encrypted` argument `true` that the claim
asserts. -/
theorem claim_C2_counterexample :
    (ExtractUsersFromString [] "eve".data true false).map User.PassEncrypted ≠ [true] := by
  decide

/-- C2 (amended): for every trimmed token with no colon, when
`skipEmptyPassword` is false, `extractStep` constructs exactly one credential
whose username is the token and whose password is empty — but whose encrypted
flag is always `false` (the Go zero value; types.go:166 sets only `Username`),
regardless of the `encrypted` argument. -/
theorem claim_C2 :
    (∀ (e : Bool) (acc : List User) (tok : Str),
        (trim nlTabSpace tok).contains ':' = false →
        trim nlTabSpace tok ≠ [] →
        extractStep e false acc tok =
          acc ++ [{ Username := trim nlTabSpace tok, Password := [], PassEncrypted := false }]) ∧
    ExtractUsersFromString [] "eve".data true false =
      [{ Username := "eve".data, Password := [], PassEncrypted := false }] := by
  constructor
  · intro e acc tok hc h0
    exact extractStep_bare_keep e acc hc h0
  · decide

theorem claim_C2_witness :
    extractStep true false [] "eve".data =
      [] ++ [{ Username := trim nlTabSpace "eve".data, Password := [], PassEncrypted := false }] :=
  claim_C2.1 true [] "eve".data (by decide) (by decide)

/-- C3: `ExtractUsersFromString` is fail-soft: a colon-delimited token with an
empty (trimmed) username or password half leaves the accumulator unchanged,
a bare-username token is dropped when `skipEmptyPassword` is true, and
parsing `"dave:,:pw,eve"` with `skipEmptyPassword = true` yields the empty
sequence. -/
theorem claim_C3 :
    ExtractUsersFromString [] "dave:,:pw,eve".data false true = [] ∧
    (∀ (e k : Bool) (acc : List User) (tok : Str),
        (trim nlTabSpace tok).contains ':' = true →
        (trim tabSpace ((trim nlTabSpace tok).take ((trim nlTabSpace tok).indexOf ':')) = [] ∨
          trim tabSpace ((trim nlTabSpace tok).drop ((trim nlTabSpace tok).indexOf ':' + 1)) = []) →
        extractStep e k acc tok = acc) ∧
    (∀ (e : Bool) (acc : List User) (tok : Str),
        (trim nlTabSpace tok).contains ':' = false →
        trim nlTabSpace tok ≠ [] →
        extractStep e true acc tok = acc) := by
  refine ⟨by decide, ?_, ?_⟩
  · intro e k acc tok hc hbad
    exact extractStep_colon_malformed e k acc hc hbad
  · intro e acc tok hc h0
    exact extractStep_bare_skip e acc hc h0

theorem claim_C3_witness :
    extractStep false false [] "dave:".data = [] ∧ extractStep false true [] "eve".data = [] :=
  ⟨claim_C3.2.1 false false [] "dave:".data (by decide) (by decide),
    claim_C3.2.2 false [] "eve".data (by decide) (by decide)⟩

/-- C4: `sortByAclName` arranges the descriptors in ascending `aclName` order
under code-point lexicographic comparison (and is a permutation of its
input); on aclNames `["zeta","alpha","mu"]` it yields
`["alpha","mu","zeta"]`; applying it a second time leaves the collection
unchanged. -/
theorem claim_C4 :
    (∀ ss : Services, (sortByAclName ss).Pairwise fun a b => a.AclName ≤ b.AclName) ∧
    (∀ ss : Services, (sortByAclName ss).Perm ss) ∧
    (sortByAclName [{ AclName := "zeta".data }, { AclName := "alpha".data },
        { AclName := "mu".data }] =
      [{ AclName := "alpha".data }, { AclName := "mu".data }, { AclName := "zeta".data }]) ∧
    (∀ ss : Services, sortByAclName (sortByAclName ss) = sortByAclName ss) := by
  haveI := service_le_total
  haveI := service_le_trans
  refine ⟨?_, ?_, by decide, ?_⟩
  · intro ss
    exact (List.sorted_insertionSort _ ss).imp fun h => (service_le_iff _ _).1 h
  · intro ss
    exact List.perm_insertionSort _ ss
  · intro ss
    exact List.Sorted.insertionSort_eq (List.sorted_insertionSort _ ss)

/-- C5: for every trimmed token that decomposes as `u ++ ':' :: p` with no
colon in `u` — i.e. splitting at the first colon — `extractStep` takes `u`
(trimmed) as the username and the entire remainder `p` (trimmed) as the
password, so a password containing colons is preserved intact, as on
`"sam:a:b:c"`. -/
theorem claim_C5 :
    (∀ (e k : Bool) (acc : List User) (tok u p : Str),
        trim nlTabSpace tok = u ++ ':' :: p →
        ':' ∉ u →
        trim tabSpace u ≠ [] →
        trim tabSpace p ≠ [] →
        extractStep e k acc tok =
          acc ++
            [{ Username := trim tabSpace u
               Password := trim tabSpace p
               PassEncrypted := e }]) ∧
    ExtractUsersFromString [] "sam:a:b:c".data true false =
      [⟨"sam".data, "a:b:c".data, true⟩] := by
  constructor
  · intro e k acc tok u p hsplit hu hn hp
    have hc : (trim nlTabSpace tok).contains ':' = true := by
      rw [hsplit]; exact contains_append_colon u p
    have hidx : (trim nlTabSpace tok).indexOf ':' = u.length := by
      rw [hsplit]; exact indexOf_append_colon p hu
    have htake : (trim nlTabSpace tok).take ((trim nlTabSpace tok).indexOf ':') = u := by
      rw [hidx, hsplit]; exact take_before_colon u p
    have hdrop : (trim nlTabSpace tok).drop ((trim nlTabSpace tok).indexOf ':' + 1) = p := by
      rw [hidx, hsplit]; exact drop_after_colon u p
    have := extractStep_colon_wellformed e k acc hc
      (by rw [htake]; exact hn) (by rw [hdrop]; exact hp)
    rw [this, htake, hdrop]
  · decide

theorem claim_C5_witness :
    extractStep true false [] "sam:a:b:c".data =
      [] ++
        [{ Username := trim tabSpace "sam".data
           Password := trim tabSpace "a:b:c".data
           PassEncrypted := true }] :=
  claim_C5.1 true false [] "sam:a:b:c".data "sam".data "a:b:c".data
    (by decide) (by decide) (by decide) (by decide)

/-- C6: `extractStep` is invariant under surrounding a delimiter-split token
with newline/tab/space characters (they are trimmed away), and trims tab and
space around the username and password halves: parsing `"  frank : pw4  "`
with `encrypted = false`, `skipEmptyPassword = false` yields exactly
`[{frank, pw4, false}]`. -/
theorem claim_C6 :
    (∀ pre post tok : Str,
        (∀ c ∈ pre, c ∈ nlTabSpace) →
        (∀ c ∈ post, c ∈ nlTabSpace) →
        ∀ (e k : Bool) (acc : List User),
        extractStep e k acc (pre ++ tok ++ post) = extractStep e k acc tok) ∧
    ExtractUsersFromString [] "  frank : pw4  ".data false false =
      [⟨"frank".data, "pw4".data, false⟩] := by
  constructor
  · intro pre post tok hpre hpost e k acc
    have hpre' : ∀ c ∈ pre, nlTabSpace.contains c = true := by
      intro c hc
      simpa using hpre c hc
    have hpost' : ∀ c ∈ post, nlTabSpace.contains c = true := by
      intro c hc
      simpa using hpost c hc
    refine extractStep_congr e k acc ?_
    rw [List.append_assoc, trim_prepend _ pre _ hpre', trim_postpend _ tok post hpost']
  · decide

theorem claim_C6_witness :
    extractStep false false [] ([' ', ' '] ++ "frank".data ++ [' ', ' ']) =
      extractStep false false [] "frank".data :=
  claim_C6.1 [' ', ' '] [' ', ' '] "frank".data (by decide) (by decide) false false []

/-- C7: `RandomUser` always returns the fixed sentinel username `"dummyUser"`
with `PassEncrypted = true` and a non-empty password made of the base-3 digit
characters; the password determines the drawn random value (distinct draws
give distinct passwords, backing "distinct with high probability"). -/
theorem claim_C7 (randomValue : Nat) :
    (RandomUser randomValue).Username = "dummyUser".data ∧
    (RandomUser randomValue).PassEncrypted = true ∧
    (RandomUser randomValue).Password ≠ [] ∧
    (∀ c ∈ (RandomUser randomValue).Password, c ∈ ['0', '1', '2']) ∧
    (∀ other : Nat,
        (RandomUser randomValue).Password = (RandomUser other).Password →
        randomValue = other) := by
  refine ⟨rfl, rfl, formatInt3_ne_nil randomValue, formatInt3_mem randomValue, ?_⟩
  intro other h
  exact formatInt3_injective randomValue other h

theorem claim_C7_witness :
    ('1' ∈ ['0', '1', '2']) ∧ (5 : Nat) = 5 :=
  ⟨(claim_C7 5).2.2.2.1 '1' (by simp [RandomUser, formatInt3]; decide),
    (claim_C7 5).2.2.2.2 5 rfl⟩

/-- Modelled from the spec: the ServiceDescriptor construction step that
applies the `aclName`-defaults-to-`serviceName` fallback.  Only the struct
comment "If not specified, serviceName is used instead" (types.go:23-24) is
in `src/`; the construction code itself lives outside `src/`. -/
def applyAclNameDefault (s : Service) : Service :=
  if s.AclName = [] then { s with AclName := s.ServiceName } else s

/-- C8: after construction, a blank `aclName` falls back to `serviceName`
(so `aclName` is never empty whenever `serviceName` is non-empty), and
constructing with blank `aclName` and `serviceName = "checkout"` yields
`aclName = "checkout"`. -/
theorem claim_C8 :
    (∀ s : Service, s.AclName = [] → (applyAclNameDefault s).AclName = s.ServiceName) ∧
    (∀ s : Service, s.ServiceName ≠ [] → (applyAclNameDefault s).AclName ≠ []) ∧
    (applyAclNameDefault { ServiceName := "checkout".data }).AclName = "checkout".data := by
  refine ⟨?_, ?_, by decide⟩
  · intro s h
    simp [applyAclNameDefault, h]
  · intro s h
    by_cases h2 : s.AclName = [] <;> simp [applyAclNameDefault, h2, h]

theorem claim_C8_witness :
    (applyAclNameDefault { ServiceName := "checkout".data }).AclName =
      ({ ServiceName := "checkout".data } : Service).ServiceName :=
  claim_C8.1 { ServiceName := "checkout".data } rfl

/-- C9: every user returned by `ExtractUsersFromString` has a non-empty
username, for all inputs. -/
theorem claim_C9 (ctx s : Str) (e k : Bool) (u : User)
    (hu : u ∈ ExtractUsersFromString ctx s e k) : u.Username ≠ [] := by
  unfold ExtractUsersFromString at hu
  split_ifs at hu
  · simp at hu
  · rcases mem_foldl_extractStep hu with h | h
    · simp at h
    · exact h

theorem claim_C9_witness :
    ({ Username := "alice".data, Password := "secret".data, PassEncrypted := false } :
      User).Username ≠ [] :=
  claim_C9 [] "alice:secret".data false false _ (by decide)

theorem deadBranchHit_eq_false (tok : Str) : deadBranchHit tok = false := by
  simp only [deadBranchHit]
  by_cases h0 : (trim nlTabSpace tok).length = 0
  · simp [h0]
  · by_cases hc : (trim nlTabSpace tok).contains ':' = true
    · simp [h0, hc]
    · simp [h0, hc]

/-- C10: the `len(user) == 0` diagnostic branch inside the no-colon `else`
(types.go:159-161) is unreachable for every input: a token that trims to
empty is always skipped by the earlier length check before the colon test. -/
theorem claim_C10 (s : Str) : extractUsersDeadBranchHit s = false := by
  unfold extractUsersDeadBranchHit
  split_ifs with h
  · rfl
  · rw [List.any_eq_false]
    intro tok _
    simp [deadBranchHit_eq_false tok]

end DockerFlowProxy
